import Mathlib

/-!
Shallow embedding of `src/php-8.2-update-helper.py`, a line-oriented scanner
for PHP 8.2 migration hazards, together with proofs about the claims on its
specification.

Modelling conventions:
* Python `dict` (insertion-ordered, unique keys, overwrite keeps position) is
  an association list `List (String × α)` manipulated only through
  `dictGet` / `dictInsert` / `dictUpdate` / `dictRemove`.
* Python `set` is a duplicate-free list built with `addToSet`; only membership
  is ever observed by the program.
* `pathlib.Path` is a `String`; a file's content is its list of lines
  (`read_text().splitlines()` already performed).
* The regular expressions of the source are hand-compiled to character-list
  matchers with Python `re` semantics (leftmost search, greedy classes; none
  of the patterns used needs backtracking because adjacent character classes
  are disjoint).  `\w` and `\s` are modelled over the ASCII range, which the
  program's inputs exercise.
* The in-place mutation of `process_extends` only ever writes the
  `dynamic_properties` field of the class currently being visited and only
  ever reads `properties` / `extends` of mapping entries, so it is embedded
  as a pure transformation; its unbounded `while` loop is given explicit
  fuel, `none` meaning the loop has not exited within the given fuel.
-/

namespace Php82

/-! ### Python dict / set primitives -/

section Dict

variable {α : Type}

def dictGet (d : List (String × α)) (k : String) : Option α :=
  match d with
  | [] => none
  | (k', v) :: rest => if k' = k then some v else dictGet rest k

def dictContains (d : List (String × α)) (k : String) : Bool :=
  (dictGet d k).isSome

def dictInsert (k : String) (v : α) : List (String × α) → List (String × α)
  | [] => [(k, v)]
  | (k', v') :: rest => if k' = k then (k, v) :: rest else (k', v') :: dictInsert k v rest

def dictUpdate (k : String) (g : α → α) : List (String × α) → List (String × α)
  | [] => []
  | (k', v) :: rest => if k' = k then (k', g v) :: rest else (k', v) :: dictUpdate k g rest

def dictRemove (k : String) : List (String × α) → List (String × α)
  | [] => []
  | (k', v) :: rest => if k' = k then dictRemove k rest else (k', v) :: dictRemove k rest

end Dict

def addToSet (x : String) (s : List String) : List String :=
  if s.contains x then s else s ++ [x]

/-! ### Data model (the pydantic models of the source) -/

structure DeclaredProperty where
  visibility : String
  name : String
  line_nr : Nat
deriving DecidableEq, Repr

structure DynamicProperty where
  name : String
  line_nr : Nat
deriving DecidableEq, Repr

structure DeprecatedFeature where
  type : String
  line_nr : Nat
  line : String
deriving DecidableEq, Repr

structure PhpClass where
  name : String
  line_nr : Nat
  properties : List (String × DeclaredProperty) := []
  dynamic_properties : List (String × DynamicProperty) := []
  extends_ : String := ""
  external_used_properties : List String := []
deriving DecidableEq, Repr

def PhpClass.get_declaration (c : PhpClass) : String :=
  if c.extends_ ≠ "" then "class " ++ c.name ++ " extends " ++ c.extends_
  else "class " ++ c.name

structure PhpFile where
  path : String
  classes : List (String × PhpClass)
  deprecated_features : List DeprecatedFeature := []
deriving DecidableEq, Repr

def PhpFile.get_classes_with_dynamic_properties (f : PhpFile) : List (String × PhpClass) :=
  f.classes.filter (fun kv => !kv.2.dynamic_properties.isEmpty)

def PhpFile.all_external_used_properties (f : PhpFile) : List String :=
  f.classes.foldl (fun acc kv => kv.2.external_used_properties.foldl (fun a x => addToSet x a) acc) []

/-! ### Regex matchers

Each matcher is the compilation of one `re` pattern of the source.  A
`search` scans candidate start positions from the left and returns the first
success, exactly like `re.search`; a `match` is anchored at the start. -/

def isWordChar (c : Char) : Bool :=
  c.isAlpha || c.isDigit || c == '_'

/-- `line.strip().startswith("//")` -/
def isCommentLine (line : String) : Bool :=
  ['/', '/'].isPrefixOf (line.toList.dropWhile (fun c => c.isWhitespace))

/-- One attempt of `class\s+(\w+)` at the current position (the `\b` is
checked by the caller). -/
def classAt (s : List Char) : Option String :=
  if ['c', 'l', 'a', 's', 's'].isPrefixOf s then
    let s1 := s.drop 5
    if (s1.takeWhile (fun c => c.isWhitespace)).isEmpty then none
    else
      let w := (s1.dropWhile (fun c => c.isWhitespace)).takeWhile isWordChar
      if w.isEmpty then none else some (String.mk w)
  else none

/-- `re.search` for `\bclass\s+(\w+)`; the Bool argument records whether the
previous character was a word character (for the `\b`). -/
def classSearchAux : Bool → List Char → Option String
  | _, [] => none
  | prev, c :: rest =>
    match (if prev then none else classAt (c :: rest)) with
    | some n => some n
    | none => classSearchAux (isWordChar c) rest

def classSearch (line : String) : Option String :=
  classSearchAux false line.toList

/-- One attempt of `extends\s+(\w+)` at the current position (the source
pattern has no `\b`). -/
def extendsAt (s : List Char) : Option String :=
  if ['e', 'x', 't', 'e', 'n', 'd', 's'].isPrefixOf s then
    let s1 := s.drop 7
    if (s1.takeWhile (fun c => c.isWhitespace)).isEmpty then none
    else
      let w := (s1.dropWhile (fun c => c.isWhitespace)).takeWhile isWordChar
      if w.isEmpty then none else some (String.mk w)
  else none

def extendsSearchAux : List Char → Option String
  | [] => none
  | c :: rest =>
    match extendsAt (c :: rest) with
    | some n => some n
    | none => extendsSearchAux rest

def extendsSearch (line : String) : Option String :=
  extendsSearchAux line.toList

/-- One attempt of `\$this\s*->\s*(\w+)\s*=` at the current position. -/
def memberAssignAt (s : List Char) : Option String :=
  if ['$', 't', 'h', 'i', 's'].isPrefixOf s then
    let s1 := (s.drop 5).dropWhile (fun c => c.isWhitespace)
    if ['-', '>'].isPrefixOf s1 then
      let s2 := (s1.drop 2).dropWhile (fun c => c.isWhitespace)
      let w := s2.takeWhile isWordChar
      if w.isEmpty then none
      else
        match (s2.dropWhile isWordChar).dropWhile (fun c => c.isWhitespace) with
        | '=' :: _ => some (String.mk w)
        | _ => none
    else none
  else none

def memberAssignSearchAux : List Char → Option String
  | [] => none
  | c :: rest =>
    match memberAssignAt (c :: rest) with
    | some n => some n
    | none => memberAssignSearchAux rest

def memberAssignSearch (line : String) : Option String :=
  memberAssignSearchAux line.toList

/-- `re.match` for `^\s*(private|protected|public|var) \$(\w+)`; returns
(visibility, name).  The four alternatives are mutually prefix-exclusive, so
first-that-fits equals the regex alternation. -/
def propertyMatch (line : String) : Option (String × String) :=
  let s1 := line.toList.dropWhile (fun c => c.isWhitespace)
  let vis : Option (String × List Char) :=
    if ['p', 'r', 'i', 'v', 'a', 't', 'e'].isPrefixOf s1 then some ("private", s1.drop 7)
    else if ['p', 'r', 'o', 't', 'e', 'c', 't', 'e', 'd'].isPrefixOf s1 then some ("protected", s1.drop 9)
    else if ['p', 'u', 'b', 'l', 'i', 'c'].isPrefixOf s1 then some ("public", s1.drop 6)
    else if ['v', 'a', 'r'].isPrefixOf s1 then some ("var", s1.drop 3)
    else none
  match vis with
  | none => none
  | some (v, rest) =>
    match rest with
    | ' ' :: '$' :: r2 =>
      let w := r2.takeWhile isWordChar
      if w.isEmpty then none else some (v, String.mk w)
    | _ => none

/-- One attempt of `(\w+)\s*->\s*(\w+)` at the current position. -/
def memberUsageAt (s : List Char) : Option (String × String) :=
  let w1 := s.takeWhile isWordChar
  if w1.isEmpty then none
  else
    let s1 := (s.dropWhile isWordChar).dropWhile (fun c => c.isWhitespace)
    if ['-', '>'].isPrefixOf s1 then
      let s2 := (s1.drop 2).dropWhile (fun c => c.isWhitespace)
      let w2 := s2.takeWhile isWordChar
      if w2.isEmpty then none else some (String.mk w1, String.mk w2)
    else none

def memberUsageSearchAux : List Char → Option (String × String)
  | [] => none
  | c :: rest =>
    match memberUsageAt (c :: rest) with
    | some p => some p
    | none => memberUsageSearchAux rest

def memberUsageSearch (line : String) : Option (String × String) :=
  memberUsageSearchAux line.toList

/-- A `${` occurrence somewhere in the remaining characters. -/
def containsDollarBrace : List Char → Bool
  | '$' :: '{' :: _ => true
  | _ :: rest => containsDollarBrace rest
  | [] => false

/-- `re.search` for `".*?\$\{`: a double quote with `${` somewhere after it
(lines contain no newline, so `.` matches every remaining character). -/
def interpolationSearchAux : List Char → Bool
  | [] => false
  | '"' :: rest => containsDollarBrace rest || interpolationSearchAux rest
  | _ :: rest => interpolationSearchAux rest

def deprecatedStringInterpolation (line : String) : Bool :=
  interpolationSearchAux line.toList

/-- `w` occurs at the head of `s` with a non-word character (or the end)
right after it. -/
def wordAtBoundary (w s : List Char) : Bool :=
  w.isPrefixOf s &&
    (match s.drop w.length with
     | [] => true
     | c :: _ => !isWordChar c)

/-- `re.search` for `\b(utf8_encode|utf8_decode)\b`; the Bool argument
records whether the previous character was a word character. -/
def deprecatedFunctionsAux : Bool → List Char → Bool
  | _, [] => false
  | prev, c :: rest =>
    (!prev && (wordAtBoundary ['u', 't', 'f', '8', '_', 'e', 'n', 'c', 'o', 'd', 'e'] (c :: rest)
            || wordAtBoundary ['u', 't', 'f', '8', '_', 'd', 'e', 'c', 'o', 'd', 'e'] (c :: rest)))
    || deprecatedFunctionsAux (isWordChar c) rest

def deprecatedFunctions (line : String) : Bool :=
  deprecatedFunctionsAux false line.toList

/-! ### File Scanner (`process_file`)

The Python scanner keeps a `current_class` object that is always aliased by
`file.classes[current_class.name]`; we therefore carry the current class's
name and mutate through the dictionary. -/

def updateCurrent (file : PhpFile) (cur : String) (g : PhpClass → PhpClass) : PhpFile :=
  { file with classes := dictUpdate cur g file.classes }

/-- The deprecated-feature records one processed line appends (lines 94-97 of
the source, one record per matching pattern, interpolation first). -/
def lineDeprecated (nr : Nat) (line : String) : List DeprecatedFeature :=
  (if deprecatedStringInterpolation line then
    [{ type := "string interpolation", line_nr := nr, line := line }] else [])
  ++ (if deprecatedFunctions line then
    [{ type := "function", line_nr := nr, line := line }] else [])

/-- The `if`/`elif` classification chain of the scanner (lines 69-92 of the
source), applied to one non-comment line. -/
def classifyLine (file : PhpFile) (cur : String) (nr : Nat) (line : String) :
    PhpFile × String :=
  match classSearch line with
  | some cname =>
    let c : PhpClass := { name := cname, line_nr := nr,
                          extends_ := (extendsSearch line).getD "" }
    ({ file with classes := dictInsert cname c file.classes }, cname)
  | none =>
    match propertyMatch line with
    | some vn =>
      let dp : DeclaredProperty := { visibility := vn.1, name := vn.2, line_nr := nr }
      (updateCurrent file cur (fun c =>
        { c with properties := dictInsert vn.2 dp c.properties }), cur)
    | none =>
      match memberAssignSearch line with
      | some m =>
        let dp : DynamicProperty := { name := m, line_nr := nr }
        (updateCurrent file cur (fun c =>
          if dictContains c.properties m || dictContains c.dynamic_properties m then c
          else { c with dynamic_properties := dictInsert m dp c.dynamic_properties }), cur)
      | none =>
        match memberUsageSearch line with
        | some im =>
          if im.1 = "this" then (file, cur)
          else
            (updateCurrent file cur (fun c =>
              { c with external_used_properties :=
                addToSet im.2 c.external_used_properties }), cur)
        | none => (file, cur)

/-- One iteration of the scanner's line loop (lines 65-97 of the source):
comment skip, then the `if`/`elif` classification chain, then the two
deprecated-feature checks. -/
def processLine (file : PhpFile) (cur : String) (nr : Nat) (line : String) :
    PhpFile × String :=
  if isCommentLine line then (file, cur)
  else
    let st := classifyLine file cur nr line
    ({ st.1 with deprecated_features := st.1.deprecated_features ++ lineDeprecated nr line },
     st.2)

def scanLines (file : PhpFile) (cur : String) (nr : Nat) : List String → PhpFile
  | [] => file
  | line :: rest =>
    let st := processLine file cur nr line
    scanLines st.1 st.2 (nr + 1) rest

/-- `process_file`: scan a file's lines into a `PhpFile`, starting from the
registered empty-name placeholder class. -/
def scanFile (path : String) (lines : List String) : PhpFile :=
  scanLines { path := path, classes := [("", { name := "", line_nr := 0 })] } "" 0 lines

/-! ### Inheritance Resolver (`process_extends`) -/

/-- Option-valued `mapM`, written out so that induction is immediate. -/
def mapMOpt {α β : Type} (g : α → Option β) : List α → Option (List β)
  | [] => some []
  | a :: as_ =>
    match g a, mapMOpt g as_ with
    | some b, some bs => some (b :: bs)
    | _, _ => none

/-- Lines 104-109 of the source: global name-to-class mapping, later classes
overwriting earlier ones, the placeholder empty name removed. -/
def buildMapping (files : List PhpFile) : List (String × PhpClass) :=
  dictRemove ""
    (files.foldl (fun m f =>
      f.classes.foldl (fun m kv => dictInsert kv.2.name kv.2 m) m) [])

/-- Lines 118-120 of the source: drop the dynamic properties whose key is
declared by the given ancestor. -/
def removeDeclaredIn (parentProps : List (String × DeclaredProperty))
    (dyn : List (String × DynamicProperty)) : List (String × DynamicProperty) :=
  dyn.filter (fun p => !dictContains parentProps p.1)

/-- The `while parent_class:` loop (lines 115-121), with explicit fuel;
`none` means the loop has not exited within `fuel` iterations (the source
loop has no cycle guard, so on a cyclic chain it never exits). -/
def walkChain (m : List (String × PhpClass)) : Nat → Option PhpClass →
    List (String × DynamicProperty) → Option (List (String × DynamicProperty))
  | _, none, dyn => some dyn
  | 0, some _, _ => none
  | fuel + 1, some p, dyn =>
    walkChain m fuel (dictGet m p.extends_) (removeDeclaredIn p.properties dyn)

/-- The sequence of `properties` dictionaries of the ancestors visited by the
`while` loop, in visit order. -/
def chainPropsList (m : List (String × PhpClass)) : Nat → Option PhpClass →
    Option (List (List (String × DeclaredProperty)))
  | _, none => some []
  | 0, some _ => none
  | fuel + 1, some p =>
    (chainPropsList m fuel (dictGet m p.extends_)).map (fun rest => p.properties :: rest)

def resolveClass (m : List (String × PhpClass)) (fuel : Nat) (c : PhpClass) :
    Option PhpClass :=
  (walkChain m fuel (dictGet m c.extends_) c.dynamic_properties).map
    (fun d => { c with dynamic_properties := d })

def resolveFile (m : List (String × PhpClass)) (fuel : Nat) (f : PhpFile) :
    Option PhpFile :=
  (mapMOpt (fun kv => (resolveClass m fuel kv.2).map (fun c => (kv.1, c))) f.classes).map
    (fun cs => { f with classes := cs })

/-- `process_extends`: resolve every class of every file against the global
mapping.  `none` when some chain walk does not exit within `fuel`. -/
def processExtends (fuel : Nat) (files : List PhpFile) : Option (List PhpFile) :=
  mapMOpt (resolveFile (buildMapping files) fuel) files

/-! ### Report Builder (`process_files`) -/

/-- The suggested declaration line for one surviving dynamic property
(lines 154-159 of the source). -/
def suggestionLine (allExt : List String) (dp : DynamicProperty) : String :=
  let visibility := if allExt.contains dp.name then "public" else "private"
  "    " ++ visibility ++ " $" ++ dp.name ++ ";"

/-- The report lines of one class with dynamic properties (lines 148-160):
header, one line per dynamic property, blank, suggested declarations, blank.
`file.path.absolute()` is modelled as the stored path string. -/
def classSection (allExt : List String) (path : String) (c : PhpClass) : List String :=
  (c.get_declaration ++ " -- " ++ path ++ ":" ++ toString (c.line_nr + 1))
  :: (c.dynamic_properties.map (fun p => "    " ++ toString (p.2.line_nr + 1) ++ ": $" ++ p.1)
  ++ [""]
  ++ c.dynamic_properties.map (fun p => suggestionLine allExt p.2)
  ++ [""])

/-- Section-2 lines of one file (lines 141-161): skipped when no class has
dynamic properties, otherwise each such class's section plus a blank line. -/
def fileDynSection (allExt : List String) (f : PhpFile) : List String :=
  if f.get_classes_with_dynamic_properties.isEmpty then []
  else f.get_classes_with_dynamic_properties.foldr
    (fun kv acc => classSection allExt f.path kv.2 ++ acc) [""]

def dynSection (allExt : List String) (files : List PhpFile) : List String :=
  files.foldr (fun f acc => fileDynSection allExt f ++ acc) []

/-- Section-1 lines of one file (lines 133-137). -/
def deprecatedFileSection (f : PhpFile) : List String :=
  if f.deprecated_features.isEmpty then []
  else f.path
    :: (f.deprecated_features.map
        (fun d => "    " ++ toString (d.line_nr + 1) ++ ": " ++ d.type ++ " " ++ d.line)
    ++ [""])

def deprecatedSection (files : List PhpFile) : List String :=
  files.foldr (fun f acc => deprecatedFileSection f ++ acc) []

def scanAll (inputs : List (String × List String)) : List PhpFile :=
  inputs.map (fun pl => scanFile pl.1 pl.2)

/-- The union (as membership) of all externally-used property names over all
scanned files, accumulated before resolution (line 130 of the source). -/
def globalExternal (files : List PhpFile) : List String :=
  files.foldl (fun acc f =>
    f.all_external_used_properties.foldl (fun a x => addToSet x a) acc) []

/-- `process_files` up to the final `"\n".join`: the report's line list.
An input is a (path, lines) pair, standing for one discovered `.php` file. -/
def processFilesLines (fuel : Nat) (inputs : List (String × List String)) :
    Option (List String) :=
  (processExtends fuel (scanAll inputs)).map (fun files2 =>
    deprecatedSection (scanAll inputs)
      ++ dynSection (globalExternal (scanAll inputs)) files2)

def processFiles (fuel : Nat) (inputs : List (String × List String)) : Option String :=
  (processFilesLines fuel inputs).map (fun ls => String.intercalate "\n" ls)

/-! ### Helper lemmas: dictionaries -/

section DictLemmas

variable {α : Type}

theorem dictGet_dictRemove_self (k : String) (d : List (String × α)) :
    dictGet (dictRemove k d) k = none := by
  induction d with
  | nil => rfl
  | cons kv rest ih =>
    obtain ⟨k', v⟩ := kv
    simp only [dictRemove]
    split_ifs with h
    · exact ih
    · simp only [dictGet, if_neg h]
      exact ih

theorem dictGet_dictInsert_ne (k k' : String) (v : α) (d : List (String × α))
    (h : k' ≠ k) : dictGet (dictInsert k v d) k' = dictGet d k' := by
  induction d with
  | nil =>
    simp only [dictInsert, dictGet]
    rw [if_neg (Ne.symm h)]
  | cons kv rest ih =>
    obtain ⟨k0, v0⟩ := kv
    simp only [dictInsert]
    by_cases h0 : k0 = k
    · subst h0
      simp only [dictGet]
      rw [if_neg (Ne.symm h), if_neg (Ne.symm h)]
    · rw [if_neg h0]
      simp only [dictGet]
      by_cases h1 : k0 = k'
      · rw [if_pos h1, if_pos h1]
      · rw [if_neg h1, if_neg h1]
        exact ih

theorem dictGet_dictUpdate (k k' : String) (g : α → α) (d : List (String × α)) :
    dictGet (dictUpdate k g d) k' =
      if k' = k then (dictGet d k').map g else dictGet d k' := by
  induction d with
  | nil =>
    simp only [dictUpdate, dictGet]
    split_ifs <;> simp
  | cons kv rest ih =>
    obtain ⟨k0, v0⟩ := kv
    by_cases h0 : k0 = k
    · subst h0
      simp only [dictUpdate, if_pos rfl, dictGet]
      by_cases h1 : k0 = k'
      · subst h1
        simp
      · rw [if_neg h1, if_neg h1, if_neg (fun hh => h1 hh.symm)]
    · simp only [dictUpdate, if_neg h0, dictGet]
      by_cases h1 : k0 = k'
      · subst h1
        simp [h0]
      · rw [if_neg h1, if_neg h1, ih]

end DictLemmas

/-! ### Helper lemmas: `mapMOpt` -/

theorem mapMOpt_eq_some_iff {α β : Type} (g : α → Option β) :
    ∀ (l : List α) (l' : List β),
      mapMOpt g l = some l' ↔ List.Forall₂ (fun a b => g a = some b) l l' := by
  intro l
  induction l with
  | nil =>
    intro l'
    constructor
    · intro h
      simp only [mapMOpt, Option.some.injEq] at h
      subst h
      exact List.Forall₂.nil
    · intro h
      cases h
      rfl
  | cons a as ih =>
    intro l'
    constructor
    · intro h
      simp only [mapMOpt] at h
      cases hg : g a with
      | none => rw [hg] at h; simp at h
      | some b =>
        cases hm : mapMOpt g as with
        | none => rw [hg, hm] at h; simp at h
        | some bs =>
          rw [hg, hm] at h
          simp only [Option.some.injEq] at h
          subst h
          exact List.Forall₂.cons hg ((ih bs).mp hm)
    · intro h
      cases h with
      | cons hab hrest =>
        simp only [mapMOpt, hab, (ih _).mpr hrest]

theorem mapMOpt_mem_right {α β : Type} (g : α → Option β) :
    ∀ (l : List α) (l' : List β), mapMOpt g l = some l' →
      ∀ b ∈ l', ∃ a ∈ l, g a = some b := by
  intro l
  induction l with
  | nil =>
    intro l' h b hb
    simp only [mapMOpt, Option.some.injEq] at h
    subst h
    cases hb
  | cons a as ih =>
    intro l' h b hb
    simp only [mapMOpt] at h
    cases hg : g a with
    | none => rw [hg] at h; simp at h
    | some b0 =>
      cases hm : mapMOpt g as with
      | none => rw [hg, hm] at h; simp at h
      | some bs =>
        rw [hg, hm] at h
        simp only [Option.some.injEq] at h
        subst h
        rcases List.mem_cons.mp hb with h1 | h1
        · subst h1
          exact ⟨a, List.mem_cons_self _ _, hg⟩
        · obtain ⟨a2, ha2, hga2⟩ := ih bs hm b h1
          exact ⟨a2, List.mem_cons_of_mem _ ha2, hga2⟩

theorem forall₂_getElem? {α β : Type} {r : α → β → Prop} :
    ∀ {l : List α} {l' : List β}, List.Forall₂ r l l' →
      ∀ (i : Nat) (a : α) (b : β), l[i]? = some a → l'[i]? = some b → r a b := by
  intro l l' h
  induction h with
  | nil => intro i a b h1 _; simp at h1
  | cons hab _ ih =>
    intro i a b h1 h2
    cases i with
    | zero =>
      rw [List.getElem?_cons_zero, Option.some.injEq] at h1 h2
      subst h1; subst h2
      exact hab
    | succ n =>
      rw [List.getElem?_cons_succ] at h1 h2
      exact ih n a b h1 h2

/-! ### Helper lemmas: the chain walk -/

/-- The filter predicate accumulated over a visited ancestor chain. -/
def chainFilter (pss : List (List (String × DeclaredProperty))) (key : String) : Bool :=
  pss.all (fun ps => !dictContains ps key)

theorem walkChain_eq (m : List (String × PhpClass)) :
    ∀ (fuel : Nat) (par : Option PhpClass) (dyn : List (String × DynamicProperty)),
      walkChain m fuel par dyn =
        (chainPropsList m fuel par).map
          (fun pss => dyn.filter (fun p => chainFilter pss p.1)) := by
  intro fuel
  induction fuel with
  | zero =>
    intro par dyn
    cases par with
    | none => simp [walkChain, chainPropsList, chainFilter, List.filter_true]
    | some p => rfl
  | succ n ih =>
    intro par dyn
    cases par with
    | none => simp [walkChain, chainPropsList, chainFilter, List.filter_true]
    | some p =>
      simp only [walkChain, chainPropsList, removeDeclaredIn]
      rw [ih]
      cases h : chainPropsList m n (dictGet m p.extends_) with
      | none => simp
      | some pss =>
        simp only [Option.map_some']
        rw [List.filter_filter]
        congr 1
        apply List.filter_congr
        intro x _
        simp [chainFilter, List.all_cons, Bool.and_comm]

theorem walkChain_sublist {m : List (String × PhpClass)} {fuel : Nat}
    {par : Option PhpClass} {dyn r : List (String × DynamicProperty)}
    (h : walkChain m fuel par dyn = some r) : r.Sublist dyn := by
  rw [walkChain_eq] at h
  obtain ⟨pss, _, h2⟩ := Option.map_eq_some'.mp h
  rw [← h2]
  exact List.filter_sublist dyn

/-! ### Helper lemmas: the resolver reads only name/extends/properties of
mapping entries (their "shell"), so shell-equal aggregates walk alike. -/

def shell (c : PhpClass) : String × String × List (String × DeclaredProperty) :=
  (c.name, c.extends_, c.properties)

def mapShell (d : List (String × PhpClass)) :
    List (String × (String × String × List (String × DeclaredProperty))) :=
  d.map (fun kv => (kv.1, shell kv.2))

theorem dictGet_mapShell (d : List (String × PhpClass)) (k : String) :
    dictGet (mapShell d) k = (dictGet d k).map shell := by
  induction d with
  | nil => rfl
  | cons kv rest ih =>
    obtain ⟨k0, c0⟩ := kv
    simp only [mapShell, List.map_cons, dictGet]
    split_ifs with h
    · rfl
    · exact ih

theorem mapShell_dictInsert (k : String) (c : PhpClass) (d : List (String × PhpClass)) :
    mapShell (dictInsert k c d) = dictInsert k (shell c) (mapShell d) := by
  induction d with
  | nil => rfl
  | cons kv rest ih =>
    obtain ⟨k0, c0⟩ := kv
    by_cases h : k0 = k
    · simp only [dictInsert, mapShell, List.map_cons, if_pos h]
    · simp only [dictInsert, mapShell, List.map_cons, if_neg h]
      simp only [mapShell] at ih
      rw [ih]

theorem mapShell_dictRemove (k : String) (d : List (String × PhpClass)) :
    mapShell (dictRemove k d) = dictRemove k (mapShell d) := by
  induction d with
  | nil => rfl
  | cons kv rest ih =>
    obtain ⟨k0, c0⟩ := kv
    by_cases h : k0 = k
    · simp only [dictRemove, mapShell, List.map_cons, if_pos h]
      exact ih
    · simp only [dictRemove, mapShell, List.map_cons, if_neg h]
      simp only [mapShell] at ih
      rw [ih]

theorem chainPropsList_congr {m m' : List (String × PhpClass)}
    (hm : mapShell m = mapShell m') :
    ∀ (fuel : Nat) (par par' : Option PhpClass),
      par.map shell = par'.map shell →
      chainPropsList m fuel par = chainPropsList m' fuel par' := by
  intro fuel
  induction fuel with
  | zero =>
    intro par par' hp
    cases par with
    | none =>
      cases par' with
      | none => rfl
      | some q => simp at hp
    | some p =>
      cases par' with
      | none => simp at hp
      | some q => rfl
  | succ n ih =>
    intro par par' hp
    cases par with
    | none =>
      cases par' with
      | none => rfl
      | some q => simp at hp
    | some p =>
      cases par' with
      | none => simp at hp
      | some q =>
        simp only [Option.map_some', Option.some.injEq] at hp
        have hprops : p.properties = q.properties := congrArg (fun s => s.2.2) hp
        have hext : p.extends_ = q.extends_ := congrArg (fun s => s.2.1) hp
        have hnext : (dictGet m p.extends_).map shell = (dictGet m' q.extends_).map shell := by
          rw [← dictGet_mapShell, ← dictGet_mapShell, hm, hext]
        simp only [chainPropsList]
        rw [hprops, ih _ _ hnext]

/-- Pairwise shell equality of two class dictionaries. -/
def classesShellEq (cs cs' : List (String × PhpClass)) : Prop :=
  List.Forall₂ (fun kv kv' => shell kv.2 = shell kv'.2) cs cs'

theorem foldInsert_shell_congr :
    ∀ {cs cs' : List (String × PhpClass)}, classesShellEq cs cs' →
      ∀ (m m' : List (String × PhpClass)), mapShell m = mapShell m' →
      mapShell (cs.foldl (fun m2 kv => dictInsert kv.2.name kv.2 m2) m)
        = mapShell (cs'.foldl (fun m2 kv => dictInsert kv.2.name kv.2 m2) m') := by
  intro cs cs' hcs
  induction hcs with
  | nil => intro m m' hm; exact hm
  | @cons a b l1 l2 hab _ ih =>
    intro m m' hm
    simp only [List.foldl_cons]
    apply ih
    rw [mapShell_dictInsert, mapShell_dictInsert]
    have hname : a.2.name = b.2.name := congrArg (fun s => s.1) hab
    rw [hab, hname, hm]

theorem foldFiles_shell_congr :
    ∀ {files files' : List PhpFile},
      List.Forall₂ (fun f f' => classesShellEq f.classes f'.classes) files files' →
      ∀ (m m' : List (String × PhpClass)), mapShell m = mapShell m' →
      mapShell (files.foldl
        (fun m2 f => f.classes.foldl (fun m3 kv => dictInsert kv.2.name kv.2 m3) m2) m)
        = mapShell (files'.foldl
        (fun m2 f => f.classes.foldl (fun m3 kv => dictInsert kv.2.name kv.2 m3) m2) m') := by
  intro files files' h
  induction h with
  | nil => intro m m' hm; exact hm
  | @cons a b l1 l2 hab _ ih =>
    intro m m' hm
    simp only [List.foldl_cons]
    exact ih _ _ (foldInsert_shell_congr hab m m' hm)

theorem buildMapping_shell_congr {files files' : List PhpFile}
    (h : List.Forall₂ (fun f f' => classesShellEq f.classes f'.classes) files files') :
    mapShell (buildMapping files) = mapShell (buildMapping files') := by
  unfold buildMapping
  rw [mapShell_dictRemove, mapShell_dictRemove]
  exact congrArg (dictRemove "") (foldFiles_shell_congr h [] [] rfl)

/-! ### Helper lemmas: `resolveClass` / `resolveFile` structure -/

theorem resolveClass_eq_some {m : List (String × PhpClass)} {fuel : Nat} {c c' : PhpClass}
    (h : resolveClass m fuel c = some c') :
    ∃ d, walkChain m fuel (dictGet m c.extends_) c.dynamic_properties = some d ∧
      c' = { c with dynamic_properties := d } := by
  obtain ⟨d, h1, h2⟩ := Option.map_eq_some'.mp h
  exact ⟨d, h1, h2.symm⟩

theorem resolveClass_shell {m : List (String × PhpClass)} {fuel : Nat} {c c' : PhpClass}
    (h : resolveClass m fuel c = some c') : shell c' = shell c := by
  obtain ⟨d, _, h2⟩ := resolveClass_eq_some h
  subst h2
  rfl

theorem resolveClass_idem {m m' : List (String × PhpClass)} {fuel : Nat} {c c' : PhpClass}
    (hm : mapShell m = mapShell m') (h : resolveClass m fuel c = some c') :
    resolveClass m' fuel c' = some c' := by
  obtain ⟨d, hw, hc⟩ := resolveClass_eq_some h
  have hext : c'.extends_ = c.extends_ := by rw [hc]
  have hdyn : c'.dynamic_properties = d := by rw [hc]
  unfold resolveClass
  rw [hext, hdyn, walkChain_eq]
  rw [walkChain_eq] at hw
  obtain ⟨pss, hpss, hd⟩ := Option.map_eq_some'.mp hw
  have hpar : (dictGet m c.extends_).map shell = (dictGet m' c.extends_).map shell := by
    rw [← dictGet_mapShell, ← dictGet_mapShell, hm]
  have hchain : chainPropsList m' fuel (dictGet m' c.extends_) = some pss := by
    rw [← chainPropsList_congr hm fuel _ _ hpar]
    exact hpss
  have hfix : d.filter (fun p => chainFilter pss p.1) = d := by
    rw [← hd, List.filter_filter]
    exact List.filter_congr (fun x _ => Bool.and_self _)
  rw [hchain]
  simp only [Option.map_some', hfix]
  rw [← hdyn, ← hext]

theorem forall₂_mem_right {α β : Type} {r : α → β → Prop} :
    ∀ {l : List α} {l' : List β}, List.Forall₂ r l l' → ∀ b ∈ l', ∃ a ∈ l, r a b := by
  intro l l' h
  induction h with
  | nil => intro b hb; cases hb
  | @cons a b l1 l2 hab _ ih =>
    intro b2 hb2
    rcases List.mem_cons.mp hb2 with h1 | h1
    · subst h1
      exact ⟨a, List.mem_cons_self _ _, hab⟩
    · obtain ⟨a2, ha2, hr⟩ := ih b2 h1
      exact ⟨a2, List.mem_cons_of_mem _ ha2, hr⟩

theorem resolveFile_eq_some {m : List (String × PhpClass)} {fuel : Nat} {f f' : PhpFile}
    (h : resolveFile m fuel f = some f') :
    f'.path = f.path ∧ f'.deprecated_features = f.deprecated_features ∧
    List.Forall₂ (fun kv kv' => kv'.1 = kv.1 ∧ resolveClass m fuel kv.2 = some kv'.2)
      f.classes f'.classes := by
  obtain ⟨cs, h1, h2⟩ := Option.map_eq_some'.mp h
  subst h2
  refine ⟨rfl, rfl, ?_⟩
  have h3 := (mapMOpt_eq_some_iff _ _ _).mp h1
  refine h3.imp (fun a b hab => ?_)
  obtain ⟨c2, hc2, hb⟩ := Option.map_eq_some'.mp hab
  constructor
  · rw [← hb]
  · rw [← hb]
    exact hc2

theorem resolveFile_shellEq {m : List (String × PhpClass)} {fuel : Nat} {f f' : PhpFile}
    (h : resolveFile m fuel f = some f') : classesShellEq f.classes f'.classes := by
  obtain ⟨_, _, h3⟩ := resolveFile_eq_some h
  exact h3.imp (fun a b hab => (resolveClass_shell hab.2).symm)

theorem resolveFile_idem {m m' : List (String × PhpClass)} {fuel : Nat} {f f' : PhpFile}
    (hm : mapShell m = mapShell m') (h : resolveFile m fuel f = some f') :
    resolveFile m' fuel f' = some f' := by
  obtain ⟨hp, hd, h3⟩ := resolveFile_eq_some h
  unfold resolveFile
  have hcs : mapMOpt (fun kv => (resolveClass m' fuel kv.2).map (fun c => (kv.1, c))) f'.classes
      = some f'.classes := by
    rw [mapMOpt_eq_some_iff, List.forall₂_same]
    intro kv' hkv'
    obtain ⟨kv, _, hrel⟩ := forall₂_mem_right h3 kv' hkv'
    rw [resolveClass_idem hm hrel.2]
    simp only [Option.map_some']
  rw [hcs]
  simp only [Option.map_some']

theorem processExtends_forall₂ {fuel : Nat} {files files' : List PhpFile}
    (h : processExtends fuel files = some files') :
    List.Forall₂ (fun f f' => resolveFile (buildMapping files) fuel f = some f')
      files files' :=
  (mapMOpt_eq_some_iff _ _ _).mp h

theorem resolveClass_frame {m : List (String × PhpClass)} {fuel : Nat} {c c' : PhpClass}
    (h : resolveClass m fuel c = some c') :
    c'.name = c.name ∧ c'.line_nr = c.line_nr ∧ c'.extends_ = c.extends_ ∧
    c'.properties = c.properties ∧
    c'.external_used_properties = c.external_used_properties ∧
    c'.dynamic_properties.Sublist c.dynamic_properties := by
  obtain ⟨d, hw, hc⟩ := resolveClass_eq_some h
  subst hc
  exact ⟨rfl, rfl, rfl, rfl, rfl, walkChain_sublist hw⟩

theorem dictContains_iff_mem {α : Type} (d : List (String × α)) (k : String) :
    dictContains d k = true ↔ ∃ v, (k, v) ∈ d := by
  induction d with
  | nil => simp [dictContains, dictGet]
  | cons kv rest ih =>
    obtain ⟨k0, v0⟩ := kv
    simp only [dictContains, dictGet]
    by_cases h : k0 = k
    · subst h
      rw [if_pos rfl]
      exact iff_of_true rfl ⟨v0, List.mem_cons_self _ _⟩
    · rw [if_neg h]
      simp only [dictContains] at ih
      rw [ih]
      constructor
      · rintro ⟨v, hv⟩
        exact ⟨v, List.mem_cons_of_mem _ hv⟩
      · rintro ⟨v, hv⟩
        rcases List.mem_cons.mp hv with h1 | h1
        · injection h1 with hk _
          exact absurd hk.symm h
        · exact ⟨v, h1⟩

theorem dictGet_filter_none {α : Type} (pred : String → Bool) (d : List (String × α))
    (k : String) (hk : pred k = false) :
    dictGet (d.filter (fun p => pred p.1)) k = none := by
  induction d with
  | nil => rfl
  | cons kv rest ih =>
    obtain ⟨k0, v0⟩ := kv
    rw [List.filter_cons]
    by_cases h0 : pred k0 = true
    · rw [if_pos h0]
      simp only [dictGet]
      by_cases h1 : k0 = k
      · subst h1
        rw [h0] at hk
        cases hk
      · rw [if_neg h1]
        exact ih
    · rw [if_neg h0]
      exact ih

/-- The invariant of claim C2 as an executable check: no class has a
dynamic-property key that is also a declared-property key. -/
def disjointCheck (files : List PhpFile) : Bool :=
  files.all (fun f => f.classes.all (fun kv =>
    kv.2.dynamic_properties.all (fun p => !dictContains kv.2.properties p.1)))

/-! ### Concrete aggregates used by witnesses and counterexamples -/

def wAx : DeclaredProperty := { visibility := "public", name := "x", line_nr := 1 }

def wBx : DynamicProperty := { name := "x", line_nr := 4 }

def wBy : DynamicProperty := { name := "y", line_nr := 5 }

def wA : PhpClass := { name := "A", line_nr := 0, properties := [("x", wAx)] }

def wB : PhpClass := { name := "B", line_nr := 3, extends_ := "A", dynamic_properties := [("x", wBx), ("y", wBy)] }

def wB2 : PhpClass := { name := "B", line_nr := 3, extends_ := "A", dynamic_properties := [("y", wBy)] }

def wFiles : List PhpFile := [{ path := "w.php", classes := [("A", wA), ("B", wB)] }]

def wFiles2 : List PhpFile := [{ path := "w.php", classes := [("A", wA), ("B", wB2)] }]

/-- The self-referential class of the cyclic aggregate: `class A extends A`. -/
def cycClass : PhpClass := { name := "A", line_nr := 0, extends_ := "A", dynamic_properties := [("x", wBx)] }

def cycFiles : List PhpFile := [{ path := "cyc.php", classes := [("A", cycClass)] }]

/-- A file whose class assigns `$this->x` before declaring `$x`. -/
def cexFile : PhpFile := scanFile "cex.php" ["class C", "    $this->x = 1;", "    public $x;"]

/-! ### Claim C1 -/

/-- C1 (code_bug): the claim says the Resolver's walk over an extends chain
always terminates because revisiting a class name stops the walk; the code
has no such cycle guard.  On the aggregate `cycFiles` (a single class
`A extends A`) the `while parent_class:` loop never exits: for every fuel the
fueled embedding of `process_extends` returns `none` (the loop has not
terminated within any finite number of iterations). -/
theorem resolver_cyclic_never_terminates :
    ∀ fuel : Nat, processExtends fuel cycFiles = none := by
  have hmap : dictGet (buildMapping cycFiles) "A" = some cycClass := rfl
  have hA : ∀ (n : Nat) (dyn : List (String × DynamicProperty)),
      walkChain (buildMapping cycFiles) n (some cycClass) dyn = none := by
    intro n
    induction n with
    | zero => intro dyn; rfl
    | succ k ih =>
      intro dyn
      simp only [walkChain]
      rw [show dictGet (buildMapping cycFiles) cycClass.extends_ = some cycClass from hmap]
      exact ih _
  intro fuel
  have hres : resolveClass (buildMapping cycFiles) fuel cycClass = none := by
    unfold resolveClass
    rw [show dictGet (buildMapping cycFiles) cycClass.extends_ = some cycClass from hmap,
        hA fuel]
    rfl
  have hfile : resolveFile (buildMapping cycFiles) fuel
      { path := "cyc.php", classes := [("A", cycClass)] } = none := by
    unfold resolveFile
    have hcs : mapMOpt
        (fun kv => (resolveClass (buildMapping cycFiles) fuel kv.2).map (fun c => (kv.1, c)))
        [("A", cycClass)] = none := by
      simp only [mapMOpt, hres, Option.map_none']
    rw [hcs]
    rfl
  show mapMOpt (resolveFile (buildMapping cycFiles) fuel)
    [{ path := "cyc.php", classes := [("A", cycClass)] }] = none
  simp only [mapMOpt, hfile]

/-! ### Claim C2 -/

/-- C2 (counterexample): after the Resolver completes on the aggregate built
from a file whose class `C` assigns `$this->x` on a line before declaring
`public $x`, the name `x` is simultaneously a declared- and a
dynamic-property key of `C`: the scanner only filters assignments against
declarations seen so far, and the resolver only consults ancestors. -/
theorem disjointness_counterexample :
    (processExtends 1 [cexFile]).map
      (fun fs => fs.any (fun f => f.classes.any
        (fun kv => dictContains kv.2.properties "x" && dictContains kv.2.dynamic_properties "x")))
      = some true := by decide

/-- C2 (amended): the Resolver preserves the disjointness invariant: if no
class of the input aggregate has a property name in both its declared and
its dynamic mapping, then the same holds after resolution (the Resolver
never adds dynamic entries and never touches declared ones).  The unamended
claim fails only when a class declares a name after an earlier `$this->`
assignment of the same name, which makes the scanner itself emit the
overlap. -/
theorem resolver_preserves_disjointness {fuel : Nat} {files files' : List PhpFile}
    (h : processExtends fuel files = some files')
    (hpre : disjointCheck files = true) :
    disjointCheck files' = true := by
  rw [disjointCheck, List.all_eq_true] at hpre ⊢
  intro f' hf'
  obtain ⟨f, hf, hres⟩ := forall₂_mem_right (processExtends_forall₂ h) f' hf'
  have hfpre := hpre f hf
  rw [List.all_eq_true] at hfpre ⊢
  intro kv' hkv'
  obtain ⟨_, _, h3⟩ := resolveFile_eq_some hres
  obtain ⟨kv, hkv, hrel⟩ := forall₂_mem_right h3 kv' hkv'
  have hkvpre := hfpre kv hkv
  rw [List.all_eq_true] at hkvpre ⊢
  intro p hp
  obtain ⟨_, _, _, hpr, _, hsub⟩ := resolveClass_frame hrel.2
  rw [hpr]
  exact hkvpre p (hsub.subset hp)

theorem resolver_preserves_disjointness_witness :
    processExtends 3 wFiles = some wFiles2 ∧ disjointCheck wFiles = true ∧
      disjointCheck wFiles2 = true :=
  ⟨by decide, by decide,
    @resolver_preserves_disjointness 3 wFiles wFiles2 (by decide) (by decide)⟩

/-! ### Claim C3 -/

/-- C3: if some ancestor on class B's extends chain (walked through the
global mapping, whether B's direct parent A or one reached transitively)
declares property `x`, and the Resolver terminates, then B's record after
resolution has no dynamic-property entry for `x`. -/
theorem resolver_removes_ancestor_declared {fuel : Nat} {files files' : List PhpFile}
    {j i : Nat} {f f' : PhpFile} {kB kB' : String × PhpClass} {x : String}
    {pss : List (List (String × DeclaredProperty))} {ps : List (String × DeclaredProperty)}
    (h : processExtends fuel files = some files')
    (hf : files[j]? = some f) (hf' : files'[j]? = some f')
    (hc : f.classes[i]? = some kB) (hc' : f'.classes[i]? = some kB')
    (hchain : chainPropsList (buildMapping files) fuel
      (dictGet (buildMapping files) kB.2.extends_) = some pss)
    (hps : ps ∈ pss) (hx : dictContains ps x = true)
    (hdyn : dictContains kB.2.dynamic_properties x = true) :
    dictContains kB'.2.dynamic_properties x = false := by
  have hfile := forall₂_getElem? (processExtends_forall₂ h) j f f' hf hf'
  obtain ⟨_, _, h3⟩ := resolveFile_eq_some hfile
  have hclass := forall₂_getElem? h3 i kB kB' hc hc'
  obtain ⟨d, hw, hcc⟩ := resolveClass_eq_some hclass.2
  rw [walkChain_eq, hchain] at hw
  simp only [Option.map_some', Option.some.injEq] at hw
  have hkB' : kB'.2.dynamic_properties = d := by rw [hcc]
  have hcf : chainFilter pss x = false := by
    cases hb : chainFilter pss x
    · rfl
    · unfold chainFilter at hb
      have h2 := List.all_eq_true.mp hb ps hps
      rw [hx] at h2
      cases h2
  rw [hkB', ← hw]
  unfold dictContains
  rw [dictGet_filter_none (fun key => chainFilter pss key) _ _ hcf]
  rfl

theorem resolver_removes_ancestor_declared_witness :
    processExtends 3 wFiles = some wFiles2 ∧
      dictContains wB.dynamic_properties "x" = true ∧
      dictContains wB2.dynamic_properties "x" = false :=
  ⟨by decide, by decide,
    @resolver_removes_ancestor_declared 3 wFiles wFiles2 0 1
      ({ path := "w.php", classes := [("A", wA), ("B", wB)] })
      ({ path := "w.php", classes := [("A", wA), ("B", wB2)] })
      ("B", wB) ("B", wB2) "x" [wA.properties] wA.properties
      (by decide) (by decide) (by decide) (by decide) (by decide)
      (by decide) (by decide) (by decide) (by decide)⟩

/-! ### Claim C5 -/

/-- C5: the Inheritance Resolver is idempotent: whenever one run terminates
and yields `files'`, running it again on `files'` terminates and returns
`files'` unchanged — in particular every class's declared- and
dynamic-property mappings are identical after the second run. -/
theorem resolver_idempotent {fuel : Nat} {files files' : List PhpFile}
    (h : processExtends fuel files = some files') :
    processExtends fuel files' = some files' := by
  have h1 := processExtends_forall₂ h
  have hshell : List.Forall₂ (fun f f' => classesShellEq f.classes f'.classes) files files' :=
    h1.imp (fun a b hab => resolveFile_shellEq hab)
  have hm : mapShell (buildMapping files) = mapShell (buildMapping files') :=
    buildMapping_shell_congr hshell
  show mapMOpt (resolveFile (buildMapping files') fuel) files' = some files'
  rw [mapMOpt_eq_some_iff, List.forall₂_same]
  intro f' hf'
  obtain ⟨f, _, hres⟩ := mapMOpt_mem_right _ _ _ h f' hf'
  exact resolveFile_idem hm hres

theorem resolver_idempotent_witness :
    processExtends 3 wFiles = some wFiles2 ∧ processExtends 3 wFiles2 = some wFiles2 :=
  ⟨by decide, @resolver_idempotent 3 wFiles wFiles2 (by decide)⟩

/-! ### Claim C8 -/

/-- C8: the Resolver only shrinks dynamic-property mappings: when it
terminates, every file keeps its path and deprecated-feature list, every
class keeps its key, name, line number, extends link, declared-property
mapping and externally-accessed set, and each class's dynamic-property
mapping afterwards is a sublist (hence a subset) of what it was before. -/
theorem resolver_frame {fuel : Nat} {files files' : List PhpFile}
    (h : processExtends fuel files = some files') :
    List.Forall₂ (fun f f' =>
      f'.path = f.path ∧ f'.deprecated_features = f.deprecated_features ∧
      List.Forall₂ (fun kv kv' =>
        kv'.1 = kv.1 ∧ kv'.2.name = kv.2.name ∧ kv'.2.line_nr = kv.2.line_nr ∧
        kv'.2.extends_ = kv.2.extends_ ∧ kv'.2.properties = kv.2.properties ∧
        kv'.2.external_used_properties = kv.2.external_used_properties ∧
        kv'.2.dynamic_properties.Sublist kv.2.dynamic_properties)
        f.classes f'.classes) files files' := by
  refine (processExtends_forall₂ h).imp (fun f f' hf => ?_)
  obtain ⟨hp, hd, h3⟩ := resolveFile_eq_some hf
  refine ⟨hp, hd, h3.imp (fun kv kv' hkv => ?_)⟩
  obtain ⟨hk, hres⟩ := hkv
  obtain ⟨hn, hl, he, hpr, hex, hsub⟩ := resolveClass_frame hres
  exact ⟨hk, hn, hl, he, hpr, hex, hsub⟩

theorem resolver_frame_witness :
    List.Forall₂ (fun f f' =>
      f'.path = f.path ∧ f'.deprecated_features = f.deprecated_features ∧
      List.Forall₂ (fun kv kv' =>
        kv'.1 = kv.1 ∧ kv'.2.name = kv.2.name ∧ kv'.2.line_nr = kv.2.line_nr ∧
        kv'.2.extends_ = kv.2.extends_ ∧ kv'.2.properties = kv.2.properties ∧
        kv'.2.external_used_properties = kv.2.external_used_properties ∧
        kv'.2.dynamic_properties.Sublist kv.2.dynamic_properties)
        f.classes f'.classes) wFiles wFiles2 :=
  @resolver_frame 3 wFiles wFiles2 (by decide)

/-! ### Scanner lemmas -/

theorem classifyLine_deprecated (file : PhpFile) (cur : String) (nr : Nat) (line : String) :
    (classifyLine file cur nr line).1.deprecated_features = file.deprecated_features := by
  unfold classifyLine
  cases classSearch line with
  | some c => rfl
  | none =>
    cases propertyMatch line with
    | some vn => rfl
    | none =>
      cases memberAssignSearch line with
      | some m => rfl
      | none =>
        cases memberUsageSearch line with
        | some im =>
          dsimp only
          split_ifs <;> rfl
        | none => rfl

theorem mem_dictInsert {α : Type} (k : String) (v : α) (d : List (String × α))
    (kv : String × α) (h : kv ∈ dictInsert k v d) : kv = (k, v) ∨ kv ∈ d := by
  induction d with
  | nil =>
    simp only [dictInsert] at h
    rcases List.mem_cons.mp h with h1 | h1
    · exact Or.inl h1
    · cases h1
  | cons kv0 rest ih =>
    obtain ⟨k0, v0⟩ := kv0
    simp only [dictInsert] at h
    split_ifs at h with h0
    · rcases List.mem_cons.mp h with h1 | h1
      · exact Or.inl h1
      · exact Or.inr (List.mem_cons_of_mem _ h1)
    · rcases List.mem_cons.mp h with h1 | h1
      · subst h1
        exact Or.inr (List.mem_cons_self _ _)
      · rcases ih h1 with h2 | h2
        · exact Or.inl h2
        · exact Or.inr (List.mem_cons_of_mem _ h2)

theorem mem_dictUpdate {α : Type} (k : String) (g : α → α) (d : List (String × α))
    (kv' : String × α) (h : kv' ∈ dictUpdate k g d) :
    kv' ∈ d ∨ ∃ kv ∈ d, kv' = (kv.1, g kv.2) := by
  induction d with
  | nil => cases h
  | cons kv0 rest ih =>
    obtain ⟨k0, v0⟩ := kv0
    simp only [dictUpdate] at h
    split_ifs at h with h0
    · rcases List.mem_cons.mp h with h1 | h1
      · exact Or.inr ⟨(k0, v0), List.mem_cons_self _ _, h1⟩
      · exact Or.inl (List.mem_cons_of_mem _ h1)
    · rcases List.mem_cons.mp h with h1 | h1
      · subst h1
        exact Or.inl (List.mem_cons_self _ _)
      · rcases ih h1 with h2 | h2
        · exact Or.inl (List.mem_cons_of_mem _ h2)
        · obtain ⟨kv, hkv, he⟩ := h2
          exact Or.inr ⟨kv, List.mem_cons_of_mem _ hkv, he⟩

theorem mem_addToSet (x y : String) (s : List String) (h : y ∈ addToSet x s) :
    y ∈ s ∨ y = x := by
  unfold addToSet at h
  split_ifs at h with h0
  · exact Or.inl h
  · rcases List.mem_append.mp h with h1 | h1
    · exact Or.inl h1
    · rcases List.mem_cons.mp h1 with h2 | h2
      · exact Or.inr h2
      · cases h2

/-- All externally-used property names of a file, over its classes. -/
def allExternal (f : PhpFile) : List String :=
  f.classes.foldr (fun kv acc => kv.2.external_used_properties ++ acc) []

theorem mem_allExternal (f : PhpFile) (x : String) :
    x ∈ allExternal f ↔ ∃ kv ∈ f.classes, x ∈ kv.2.external_used_properties := by
  unfold allExternal
  induction f.classes with
  | nil => simp
  | cons kv rest ih =>
    simp only [List.foldr_cons, List.mem_append, ih]
    constructor
    · rintro (h1 | ⟨kv2, h2, h3⟩)
      · exact ⟨kv, List.mem_cons_self _ _, h1⟩
      · exact ⟨kv2, List.mem_cons_of_mem _ h2, h3⟩
    · rintro ⟨kv2, h2, h3⟩
      rcases List.mem_cons.mp h2 with h4 | h4
      · subst h4
        exact Or.inl h3
      · exact Or.inr ⟨kv2, h4, h3⟩

/-! ### Claim C7 -/

/-- C7: a line whose trimmed content starts with the `//` marker is skipped
entirely: the scanner step leaves the file record (classes, declared and
dynamic properties, externally-accessed names, deprecated features) and the
current-class cursor unchanged. -/
theorem comment_line_skipped (file : PhpFile) (cur : String) (nr : Nat) (line : String)
    (h : isCommentLine line = true) :
    processLine file cur nr line = (file, cur) := by
  unfold processLine
  rw [if_pos h]

theorem comment_line_skipped_witness :
    isCommentLine "  // $this->x = utf8_encode($s);" = true ∧
      processLine cexFile "C" 7 "  // $this->x = utf8_encode($s);" = (cexFile, "C") :=
  ⟨by decide, comment_line_skipped cexFile "C" 7 _ (by decide)⟩

/-! ### Claim C6 -/

/-- C6: every line the scanner processes (i.e. every non-comment line)
appends exactly the records of `lineDeprecated`: one record of kind
"function" exactly when the legacy-function pattern matches, one record of
kind "string interpolation" exactly when the `${` interpolation pattern
matches — so a line matching both contributes two records and a line
matching neither contributes none, regardless of how many occurrences of
each pattern the line contains. -/
theorem deprecated_per_line (file : PhpFile) (cur : String) (nr : Nat) (line : String)
    (h : isCommentLine line = false) :
    (processLine file cur nr line).1.deprecated_features
        = file.deprecated_features ++ lineDeprecated nr line ∧
      ((lineDeprecated nr line).filter (fun d2 => d2.type == "function")).length
        = (if deprecatedFunctions line then 1 else 0) ∧
      ((lineDeprecated nr line).filter (fun d2 => d2.type == "string interpolation")).length
        = (if deprecatedStringInterpolation line then 1 else 0) ∧
      (lineDeprecated nr line).length
        = (if deprecatedStringInterpolation line then 1 else 0)
          + (if deprecatedFunctions line then 1 else 0) := by
  refine ⟨?_, ?_, ?_, ?_⟩
  · unfold processLine
    rw [if_neg (by simp [h])]
    show (classifyLine file cur nr line).1.deprecated_features ++ lineDeprecated nr line
        = file.deprecated_features ++ lineDeprecated nr line
    rw [classifyLine_deprecated]
  · unfold lineDeprecated
    cases h1 : deprecatedStringInterpolation line <;>
      cases h2 : deprecatedFunctions line <;> rfl
  · unfold lineDeprecated
    cases h1 : deprecatedStringInterpolation line <;>
      cases h2 : deprecatedFunctions line <;> rfl
  · unfold lineDeprecated
    cases h1 : deprecatedStringInterpolation line <;>
      cases h2 : deprecatedFunctions line <;> rfl

theorem deprecated_per_line_witness :
    isCommentLine "$a = utf8_encode(\"x $\x7by\x7d\");" = false ∧
      (processLine cexFile "C" 9 "$a = utf8_encode(\"x $\x7by\x7d\");").1.deprecated_features
        = cexFile.deprecated_features
          ++ lineDeprecated 9 "$a = utf8_encode(\"x $\x7by\x7d\");" ∧
      (lineDeprecated 9 "$a = utf8_encode(\"x $\x7by\x7d\");").length = 2 :=
  ⟨by decide,
    (deprecated_per_line cexFile "C" 9 _ (by decide)).1,
    by decide⟩

/-! ### Claim C10 -/

/-- C10: a scanned line records at most one externally-accessed property
name: any name present afterwards but not before must come from the single
first match of the member-usage pattern on that line, is recorded only when
the receiver identifier is not the literal `this`, and only when the line
was not already classified as a class declaration, a declared property or a
`$this` member assignment (and comment lines record nothing). -/
theorem external_per_line (file : PhpFile) (cur : String) (nr : Nat) (line : String)
    (x : String) (hx : x ∈ allExternal (processLine file cur nr line).1) :
    x ∈ allExternal file ∨
      (isCommentLine line = false ∧ classSearch line = none ∧ propertyMatch line = none ∧
       memberAssignSearch line = none ∧
       ∃ idName, memberUsageSearch line = some (idName, x) ∧ idName ≠ "this") := by
  unfold processLine at hx
  by_cases hcmt : isCommentLine line = true
  · rw [if_pos hcmt] at hx
    exact Or.inl hx
  · rw [if_neg hcmt] at hx
    have hcmt' : isCommentLine line = false := by
      cases hb : isCommentLine line
      · rfl
      · exact absurd hb hcmt
    replace hx : x ∈ allExternal (classifyLine file cur nr line).1 := hx
    unfold classifyLine at hx
    cases hclass : classSearch line with
    | some cname =>
      rw [hclass] at hx
      rw [mem_allExternal] at hx
      obtain ⟨kv, hkv, hxin⟩ := hx
      rcases mem_dictInsert _ _ _ _ hkv with h1 | h1
      · subst h1
        cases hxin
      · exact Or.inl ((mem_allExternal file x).mpr ⟨kv, h1, hxin⟩)
    | none =>
      rw [hclass] at hx
      cases hprop : propertyMatch line with
      | some vn =>
        rw [hprop] at hx
        rw [mem_allExternal] at hx
        obtain ⟨kv', hkv', hxin⟩ := hx
        rcases mem_dictUpdate _ _ _ _ hkv' with h1 | ⟨kv, hkv, he⟩
        · exact Or.inl ((mem_allExternal file x).mpr ⟨kv', h1, hxin⟩)
        · subst he
          exact Or.inl ((mem_allExternal file x).mpr ⟨kv, hkv, hxin⟩)
      | none =>
        rw [hprop] at hx
        cases hassign : memberAssignSearch line with
        | some m =>
          rw [hassign] at hx
          rw [mem_allExternal] at hx
          obtain ⟨kv', hkv', hxin⟩ := hx
          rcases mem_dictUpdate _ _ _ _ hkv' with h1 | ⟨kv, hkv, he⟩
          · exact Or.inl ((mem_allExternal file x).mpr ⟨kv', h1, hxin⟩)
          · subst he
            simp only at hxin
            split_ifs at hxin
            · exact Or.inl ((mem_allExternal file x).mpr ⟨kv, hkv, hxin⟩)
            · exact Or.inl ((mem_allExternal file x).mpr ⟨kv, hkv, hxin⟩)
        | none =>
          rw [hassign] at hx
          cases husage : memberUsageSearch line with
          | some im =>
            rw [husage] at hx
            dsimp only at hx
            by_cases hthis : im.1 = "this"
            · rw [if_pos hthis] at hx
              exact Or.inl hx
            · rw [if_neg hthis] at hx
              rw [mem_allExternal] at hx
              obtain ⟨kv', hkv', hxin⟩ := hx
              rcases mem_dictUpdate _ _ _ _ hkv' with h1 | ⟨kv, hkv, he⟩
              · exact Or.inl ((mem_allExternal file x).mpr ⟨kv', h1, hxin⟩)
              · subst he
                simp only at hxin
                rcases mem_addToSet _ _ _ hxin with h2 | h2
                · exact Or.inl ((mem_allExternal file x).mpr ⟨kv, hkv, h2⟩)
                · subst h2
                  exact Or.inr ⟨hcmt', rfl, rfl, rfl, im.1, rfl, hthis⟩
          | none =>
            rw [husage] at hx
            exact Or.inl hx

theorem external_per_line_witness :
    "y" ∈ allExternal (processLine cexFile "C" 9 "$obj->y = 1;").1 ∧
      ("y" ∈ allExternal cexFile ∨
        (isCommentLine "$obj->y = 1;" = false ∧ classSearch "$obj->y = 1;" = none ∧
         propertyMatch "$obj->y = 1;" = none ∧ memberAssignSearch "$obj->y = 1;" = none ∧
         ∃ idName, memberUsageSearch "$obj->y = 1;" = some (idName, "y") ∧
           idName ≠ "this")) :=
  ⟨by decide, external_per_line cexFile "C" 9 "$obj->y = 1;" "y" (by decide)⟩

/-! ### Report-builder lemmas -/

theorem suggestionLine_public (allExt : List String) (dp : DynamicProperty)
    (hc : allExt.contains dp.name = true) :
    suggestionLine allExt dp = "    public $" ++ dp.name ++ ";" := by
  unfold suggestionLine
  rw [hc]
  show ("    " ++ "public" ++ " $" ++ dp.name ++ ";") = "    public $" ++ dp.name ++ ";"
  rw [show ("    " ++ "public" ++ " $" : String) = "    public $" from by decide]

theorem suggestionLine_private (allExt : List String) (dp : DynamicProperty)
    (hc : allExt.contains dp.name = false) :
    suggestionLine allExt dp = "    private $" ++ dp.name ++ ";" := by
  unfold suggestionLine
  rw [hc]
  show ("    " ++ "private" ++ " $" ++ dp.name ++ ";") = "    private $" ++ dp.name ++ ";"
  rw [show ("    " ++ "private" ++ " $" : String) = "    private $" from by decide]

theorem public_ne_private (n : String) :
    ("    public $" ++ n ++ ";") ≠ ("    private $" ++ n ++ ";") := by
  intro h
  have hl := congrArg String.length h
  simp only [String.length_append] at hl
  rw [show ("    public $" : String).length = 12 from rfl,
      show ("    private $" : String).length = 13 from rfl] at hl
  omega

theorem mem_classSection_suggestion (allExt : List String) (path : String) (c : PhpClass)
    (p : String × DynamicProperty) (hp : p ∈ c.dynamic_properties) :
    suggestionLine allExt p.2 ∈ classSection allExt path c := by
  unfold classSection
  apply List.mem_cons_of_mem
  simp only [List.mem_append]
  exact Or.inl (Or.inr (List.mem_map.mpr ⟨p, hp, rfl⟩))

theorem mem_foldr_append {α β : Type} (g : α → List β) (init : List β) :
    ∀ (l : List α) (a : α) (y : β), a ∈ l → y ∈ g a →
      y ∈ l.foldr (fun a2 acc => g a2 ++ acc) init := by
  intro l
  induction l with
  | nil => intro a y ha _; cases ha
  | cons a0 rest ih =>
    intro a y ha hy
    simp only [List.foldr_cons, List.mem_append]
    rcases List.mem_cons.mp ha with h1 | h1
    · subst h1
      exact Or.inl hy
    · exact Or.inr (ih a y h1 hy)

theorem mem_fileDynSection (allExt : List String) (f : PhpFile) (kc : String × PhpClass)
    (hkc : kc ∈ f.classes) (hne : kc.2.dynamic_properties ≠ []) (y : String)
    (hy : y ∈ classSection allExt f.path kc.2) : y ∈ fileDynSection allExt f := by
  have hkc2 : kc ∈ f.get_classes_with_dynamic_properties := by
    unfold PhpFile.get_classes_with_dynamic_properties
    rw [List.mem_filter]
    refine ⟨hkc, ?_⟩
    cases hd : kc.2.dynamic_properties with
    | nil => exact absurd hd hne
    | cons a l => rfl
  have hne2 : f.get_classes_with_dynamic_properties.isEmpty = false := by
    cases hl : f.get_classes_with_dynamic_properties with
    | nil =>
      rw [hl] at hkc2
      cases hkc2
    | cons kc0 rest => rfl
  have hff : ¬(false = true) := by decide
  unfold fileDynSection
  rw [hne2, if_neg hff]
  exact @mem_foldr_append (String × PhpClass) String
    (fun kv => classSection allExt f.path kv.2) [""]
    f.get_classes_with_dynamic_properties kc y hkc2 hy

theorem mem_dynSection (allExt : List String) (files : List PhpFile) (f : PhpFile)
    (hf : f ∈ files) (y : String) (hy : y ∈ fileDynSection allExt f) :
    y ∈ dynSection allExt files :=
  mem_foldr_append (fileDynSection allExt) [] files f y hf hy

/-! ### Claim C4 -/

/-- C4: for every dynamic property surviving resolution, the report contains
its suggested declaration line, and that line reads `    public $name;`
exactly when the property's name is in the global union of
externally-accessed names collected by the scanner over all input files, and
`    private $name;` exactly otherwise. -/
theorem report_visibility_from_external (fuel : Nat)
    (inputs : List (String × List String)) (out : List String)
    (files' : List PhpFile) (f' : PhpFile) (kc : String × PhpClass)
    (p : String × DynamicProperty)
    (h : processFilesLines fuel inputs = some out)
    (hpe : processExtends fuel (scanAll inputs) = some files')
    (hf : f' ∈ files') (hkc : kc ∈ f'.classes) (hp : p ∈ kc.2.dynamic_properties) :
    suggestionLine (globalExternal (scanAll inputs)) p.2 ∈ out ∧
      (suggestionLine (globalExternal (scanAll inputs)) p.2
          = "    public $" ++ p.2.name ++ ";"
        ↔ (globalExternal (scanAll inputs)).contains p.2.name = true) ∧
      (suggestionLine (globalExternal (scanAll inputs)) p.2
          = "    private $" ++ p.2.name ++ ";"
        ↔ (globalExternal (scanAll inputs)).contains p.2.name = false) := by
  have hout : out = deprecatedSection (scanAll inputs)
      ++ dynSection (globalExternal (scanAll inputs)) files' := by
    unfold processFilesLines at h
    rw [hpe] at h
    simp only [Option.map_some', Option.some.injEq] at h
    exact h.symm
  refine ⟨?_, ?_, ?_⟩
  · rw [hout, List.mem_append]
    refine Or.inr (mem_dynSection _ _ f' hf _ (mem_fileDynSection _ _ kc hkc ?_ _
      (mem_classSection_suggestion _ _ _ p hp)))
    intro hnil
    rw [hnil] at hp
    cases hp
  · by_cases hc : (globalExternal (scanAll inputs)).contains p.2.name = true
    · exact iff_of_true (suggestionLine_public _ _ hc) hc
    · have hc' : (globalExternal (scanAll inputs)).contains p.2.name = false := by
        cases hb : (globalExternal (scanAll inputs)).contains p.2.name
        · rfl
        · exact absurd hb hc
      refine iff_of_false ?_ (by rw [hc']; decide)
      rw [suggestionLine_private _ _ hc']
      exact fun hh => public_ne_private p.2.name hh.symm
  · by_cases hc : (globalExternal (scanAll inputs)).contains p.2.name = true
    · refine iff_of_false ?_ (by rw [hc]; decide)
      rw [suggestionLine_public _ _ hc]
      exact public_ne_private p.2.name
    · have hc' : (globalExternal (scanAll inputs)).contains p.2.name = false := by
        cases hb : (globalExternal (scanAll inputs)).contains p.2.name
        · rfl
        · exact absurd hb hc
      exact iff_of_true (suggestionLine_private _ _ hc') hc'

/-! ### Lemmas for the pre-class placeholder (claim C9) -/

theorem walkChain_none (m : List (String × PhpClass)) (fuel : Nat)
    (dyn : List (String × DynamicProperty)) : walkChain m fuel none dyn = some dyn := by
  cases fuel <;> rfl

theorem dictGet_dictInsert_self {α : Type} (k : String) (v : α) (d : List (String × α)) :
    dictGet (dictInsert k v d) k = some v := by
  induction d with
  | nil => simp [dictInsert, dictGet]
  | cons kv rest ih =>
    obtain ⟨k0, v0⟩ := kv
    simp only [dictInsert]
    split_ifs with h0
    · simp [dictGet]
    · simp only [dictGet, if_neg h0]
      exact ih

theorem isEmpty_false_of_dictGet_some {α : Type} {d : List (String × α)} {k : String}
    {v : α} (h : dictGet d k = some v) : d.isEmpty = false := by
  cases d with
  | nil => cases h
  | cons kv rest => rfl

theorem classAt_ne_empty {s : List Char} {n : String} (h : classAt s = some n) :
    n ≠ "" := by
  unfold classAt at h
  by_cases h1 : ['c', 'l', 'a', 's', 's'].isPrefixOf (s) = true
  · rw [if_pos h1] at h
    by_cases h2 : ((s.drop 5).takeWhile (fun c => c.isWhitespace)).isEmpty = true
    · rw [if_pos h2] at h
      cases h
    · rw [if_neg h2] at h
      by_cases h3 : (((s.drop 5).dropWhile (fun c => c.isWhitespace)).takeWhile isWordChar).isEmpty = true
      · rw [if_pos h3] at h
        cases h
      · rw [if_neg h3] at h
        have hn : n = String.mk (((s.drop 5).dropWhile (fun c => c.isWhitespace)).takeWhile isWordChar) := by
          injection h with hh
          exact hh.symm
        subst hn
        intro hcon
        have hw := congrArg String.data hcon
        cases hww : ((s.drop 5).dropWhile (fun c => c.isWhitespace)).takeWhile isWordChar with
        | nil =>
          rw [hww] at h3
          exact h3 rfl
        | cons a l =>
          rw [hww] at hw
          cases hw
  · rw [if_neg h1] at h
    cases h

theorem classSearchAux_ne_empty :
    ∀ (s : List Char) (prev : Bool) (n : String),
      classSearchAux prev s = some n → n ≠ "" := by
  intro s
  induction s with
  | nil => intro prev n h; cases h
  | cons c rest ih =>
    intro prev n h
    cases prev with
    | true =>
      have heq : classSearchAux true (c :: rest) = classSearchAux (isWordChar c) rest := rfl
      rw [heq] at h
      exact ih _ n h
    | false =>
      unfold classSearchAux at h
      cases hca : classAt (c :: rest) with
      | some n2 =>
        rw [hca] at h
        have h2 : some n2 = some n := h
        injection h2 with h3
        subst h3
        exact classAt_ne_empty hca
      | none =>
        rw [hca] at h
        exact ih _ n h

theorem classSearch_ne_empty {line : String} {n : String}
    (h : classSearch line = some n) : n ≠ "" :=
  classSearchAux_ne_empty line.toList false n h

/-- The invariant claim C9 is about: the empty-name placeholder class sits at
the head of the file's class dictionary, was created at line 0 with no
extends link, and carries a dynamic-property entry for `n` from line 0. -/
def placeholderInv (n : String) (f : PhpFile) : Prop :=
  ∃ c rest, f.classes = ("", c) :: rest ∧ c.name = "" ∧ c.line_nr = 0 ∧
    c.extends_ = "" ∧
    dictGet c.dynamic_properties n = some { name := n, line_nr := 0 }

theorem dictUpdate_cons {α : Type} (k : String) (g : α → α) (k0 : String) (v : α)
    (rest : List (String × α)) :
    dictUpdate k g ((k0, v) :: rest)
      = if k0 = k then (k0, g v) :: rest else (k0, v) :: dictUpdate k g rest := rfl

theorem dictInsert_cons {α : Type} (k : String) (v : α) (k0 : String) (v0 : α)
    (rest : List (String × α)) :
    dictInsert k v ((k0, v0) :: rest)
      = if k0 = k then (k, v) :: rest else (k0, v0) :: dictInsert k v rest := rfl

theorem updateCurrent_preserves_placeholderInv (n : String) (file : PhpFile)
    (cur : String) (g : PhpClass → PhpClass)
    (hg : ∀ c2 : PhpClass, (g c2).name = c2.name ∧ (g c2).line_nr = c2.line_nr ∧
      (g c2).extends_ = c2.extends_ ∧
      (dictGet c2.dynamic_properties n = some { name := n, line_nr := 0 } →
        dictGet (g c2).dynamic_properties n = some { name := n, line_nr := 0 }))
    (h : placeholderInv n file) : placeholderInv n (updateCurrent file cur g) := by
  obtain ⟨c, rest, hcls, hname, hline, hext, hdg⟩ := h
  by_cases hcur : "" = cur
  · refine ⟨g c, rest, ?_, ?_, ?_, ?_, (hg c).2.2.2 hdg⟩
    · show dictUpdate cur g file.classes = ("", g c) :: rest
      rw [hcls, dictUpdate_cons, if_pos hcur]
    · rw [(hg c).1, hname]
    · rw [(hg c).2.1, hline]
    · rw [(hg c).2.2.1, hext]
  · refine ⟨c, dictUpdate cur g rest, ?_, hname, hline, hext, hdg⟩
    show dictUpdate cur g file.classes = ("", c) :: dictUpdate cur g rest
    rw [hcls, dictUpdate_cons, if_neg hcur]

theorem classifyLine_preserves_placeholderInv (n : String) (file : PhpFile)
    (cur : String) (nr : Nat) (line : String) (h : placeholderInv n file) :
    placeholderInv n (classifyLine file cur nr line).1 := by
  unfold classifyLine
  cases hclass : classSearch line with
  | some cname =>
    dsimp only
    obtain ⟨c, rest, hcls, hname, hline, hext, hdg⟩ := h
    have hcne := classSearch_ne_empty hclass
    refine ⟨c, dictInsert cname { name := cname, line_nr := nr, extends_ := (extendsSearch line).getD "" } rest, ?_, hname, hline, hext, hdg⟩
    show dictInsert cname { name := cname, line_nr := nr, extends_ := (extendsSearch line).getD "" } file.classes = _
    rw [hcls, dictInsert_cons, if_neg (fun hh => hcne hh.symm)]
  | none =>
    cases hprop : propertyMatch line with
    | some vn =>
      exact updateCurrent_preserves_placeholderInv n file cur _
        (fun c2 => ⟨rfl, rfl, rfl, fun hd => hd⟩) h
    | none =>
      cases hassign : memberAssignSearch line with
      | some m =>
        dsimp only
        refine updateCurrent_preserves_placeholderInv n file cur _ (fun c2 => ?_) h
        by_cases hcond :
            (dictContains c2.properties m || dictContains c2.dynamic_properties m) = true
        · simp only [if_pos hcond]
          exact ⟨trivial, trivial, trivial, fun hd => hd⟩
        · simp only [if_neg hcond]
          refine ⟨trivial, trivial, trivial, fun hd => ?_⟩
          by_cases hmn : m = n
          · subst hmn
            exfalso
            apply hcond
            have hcon : dictContains c2.dynamic_properties m = true := by
              unfold dictContains
              rw [hd]
              rfl
            rw [hcon, Bool.or_true]
          · show dictGet (dictInsert m { name := m, line_nr := nr }
              c2.dynamic_properties) n = _
            rw [dictGet_dictInsert_ne m n _ _ (fun hh => hmn hh.symm)]
            exact hd
      | none =>
        cases husage : memberUsageSearch line with
        | some im =>
          dsimp only
          by_cases hthis : im.1 = "this"
          · rw [if_pos hthis]
            exact h
          · rw [if_neg hthis]
            exact updateCurrent_preserves_placeholderInv n file cur _
              (fun c2 => ⟨rfl, rfl, rfl, fun hd => hd⟩) h
        | none => exact h

theorem processLine_preserves_placeholderInv (n : String) (file : PhpFile)
    (cur : String) (nr : Nat) (line : String) (h : placeholderInv n file) :
    placeholderInv n (processLine file cur nr line).1 := by
  unfold processLine
  by_cases hcmt : isCommentLine line = true
  · rw [if_pos hcmt]
    exact h
  · rw [if_neg hcmt]
    exact classifyLine_preserves_placeholderInv n file cur nr line h

theorem scanLines_preserves_placeholderInv (n : String) :
    ∀ (lines : List String) (file : PhpFile) (cur : String) (nr : Nat),
      placeholderInv n file → placeholderInv n (scanLines file cur nr lines) := by
  intro lines
  induction lines with
  | nil => intro file cur nr h; exact h
  | cons line rest ih =>
    intro file cur nr h
    unfold scanLines
    exact ih _ _ _ (processLine_preserves_placeholderInv n file cur nr line h)

theorem classifyLine_path (file : PhpFile) (cur : String) (nr : Nat) (line : String) :
    (classifyLine file cur nr line).1.path = file.path := by
  unfold classifyLine
  cases classSearch line with
  | some c => rfl
  | none =>
    cases propertyMatch line with
    | some vn => rfl
    | none =>
      cases memberAssignSearch line with
      | some m => rfl
      | none =>
        cases memberUsageSearch line with
        | some im =>
          dsimp only
          split_ifs <;> rfl
        | none => rfl

theorem processLine_path (file : PhpFile) (cur : String) (nr : Nat) (line : String) :
    (processLine file cur nr line).1.path = file.path := by
  unfold processLine
  split_ifs with hcmt
  · rfl
  · exact classifyLine_path file cur nr line

theorem scanLines_path :
    ∀ (lines : List String) (file : PhpFile) (cur : String) (nr : Nat),
      (scanLines file cur nr lines).path = file.path := by
  intro lines
  induction lines with
  | nil => intro file cur nr; rfl
  | cons line rest ih =>
    intro file cur nr
    unfold scanLines
    rw [ih]
    exact processLine_path file cur nr line

theorem scanFile_path (path : String) (lines : List String) :
    (scanFile path lines).path = path := by
  unfold scanFile
  rw [scanLines_path]

theorem scanFile_placeholderInv (path line₀ : String) (rest : List String) (n : String)
    (hc : isCommentLine line₀ = false) (h1 : classSearch line₀ = none)
    (h2 : propertyMatch line₀ = none) (h3 : memberAssignSearch line₀ = some n) :
    placeholderInv n (scanFile path (line₀ :: rest)) := by
  unfold scanFile scanLines
  dsimp only
  apply scanLines_preserves_placeholderInv
  unfold processLine
  rw [if_neg (by simp [hc])]
  unfold classifyLine
  rw [h1, h2, h3]
  dsimp only
  refine ⟨{ name := "", line_nr := 0, dynamic_properties := dictInsert n { name := n, line_nr := 0 } [] }, [], ?_, rfl, rfl, rfl, dictGet_dictInsert_self n _ []⟩
  rfl

/-! ### Claim C9 -/

/-- C9: when a file's first line carries a `$this->n =` assignment and no
class declaration or property declaration (so it precedes any class), the
assignment lands on the empty-name placeholder record, survives resolution
(the placeholder has no extends link, so no ancestor can remove it), and
Section 2 of the report contains the placeholder's block: the header with
declaration text `class ` (empty class name) and declared line 1 (its
`line_nr` is 0 and the builder prints `line_nr + 1`), followed by its
dynamic-property lines and suggested declarations (the block is
`classSection`, whose head is the header line). -/
theorem placeholder_reported (fuel : Nat) (path line₀ : String) (rest : List String)
    (n : String) (out : List String)
    (hc : isCommentLine line₀ = false) (h1 : classSearch line₀ = none)
    (h2 : propertyMatch line₀ = none) (h3 : memberAssignSearch line₀ = some n)
    (h : processFilesLines fuel [(path, line₀ :: rest)] = some out) :
    ∃ c tail,
      out = deprecatedSection (scanAll [(path, line₀ :: rest)])
        ++ (classSection (globalExternal (scanAll [(path, line₀ :: rest)])) path c ++ tail)
      ∧ c.get_declaration = "class " ∧ c.line_nr = 0
      ∧ dictGet c.dynamic_properties n = some { name := n, line_nr := 0 } := by
  obtain ⟨c, restC, hcls, hname, hline, hext, hdg⟩ :=
    scanFile_placeholderInv path line₀ rest n hc h1 h2 h3
  unfold processFilesLines at h
  cases hpe : processExtends fuel (scanAll [(path, line₀ :: rest)]) with
  | none =>
    rw [hpe] at h
    cases h
  | some files' =>
    rw [hpe] at h
    simp only [Option.map_some', Option.some.injEq] at h
    have hform := processExtends_forall₂ hpe
    cases hform with
    | cons hres hnil =>
      cases hnil with
      | nil =>
        rename_i F'
        -- hres : resolveFile m fuel (scanFile path (line₀ :: rest)) = some F'
        obtain ⟨cs, hmapc, hF'⟩ := Option.map_eq_some'.mp hres
        rw [hcls] at hmapc
        have hget0 : dictGet (buildMapping (scanAll [(path, line₀ :: rest)])) "" = none := by
          unfold buildMapping
          exact dictGet_dictRemove_self "" _
        have hresc : resolveClass (buildMapping (scanAll [(path, line₀ :: rest)])) fuel c
            = some c := by
          unfold resolveClass
          rw [hext, hget0, walkChain_none]
          simp only [Option.map_some']
          rw [← hext]
        unfold mapMOpt at hmapc
        dsimp only at hmapc
        rw [hresc] at hmapc
        simp only [Option.map_some'] at hmapc
        cases hrest2 : mapMOpt (fun kv => Option.map (fun c2 => (kv.1, c2))
            (resolveClass (buildMapping (scanAll [(path, line₀ :: rest)])) fuel kv.2))
            restC with
        | none =>
          rw [hrest2] at hmapc
          cases hmapc
        | some bs =>
          rw [hrest2] at hmapc
          have hmapc2 : some (("", c) :: bs) = some cs := hmapc
          injection hmapc2 with hcs
          subst hcs
          -- F' structure
          have hFcls : F'.classes = ("", c) :: bs := by rw [← hF']
          have hFpath : F'.path = path := by
            rw [← hF']
            show (scanFile path (line₀ :: rest)).path = path
            exact scanFile_path path (line₀ :: rest)
          have hpred : (!c.dynamic_properties.isEmpty) = true := by
            rw [isEmpty_false_of_dictGet_some hdg]
            rfl
          have hfilter : F'.get_classes_with_dynamic_properties
              = ("", c) :: (bs.filter (fun kv => !kv.2.dynamic_properties.isEmpty)) := by
            unfold PhpFile.get_classes_with_dynamic_properties
            rw [hFcls, List.filter_cons, if_pos hpred]
          have hff : ¬(false = true) := by decide
          have hsec : fileDynSection (globalExternal (scanAll [(path, line₀ :: rest)])) F'
              = classSection (globalExternal (scanAll [(path, line₀ :: rest)])) path c
                ++ (bs.filter (fun kv => !kv.2.dynamic_properties.isEmpty)).foldr
                  (fun kv acc => classSection
                    (globalExternal (scanAll [(path, line₀ :: rest)])) F'.path kv.2 ++ acc)
                  [""] := by
            unfold fileDynSection
            rw [hfilter]
            rw [show (("", c) :: (bs.filter (fun kv => !kv.2.dynamic_properties.isEmpty))).isEmpty = false from rfl]
            rw [if_neg hff, List.foldr_cons, hFpath]
          have hdyn2 : dynSection (globalExternal (scanAll [(path, line₀ :: rest)])) [F']
              = fileDynSection (globalExternal (scanAll [(path, line₀ :: rest)])) F' := by
            unfold dynSection
            rw [List.foldr_cons, List.foldr_nil, List.append_nil]
          refine ⟨c, (bs.filter (fun kv => !kv.2.dynamic_properties.isEmpty)).foldr
            (fun kv acc => classSection
              (globalExternal (scanAll [(path, line₀ :: rest)])) F'.path kv.2 ++ acc)
            [""], ?_, ?_, hline, hdg⟩
          · rw [← h, hdyn2, hsec]
          · unfold PhpClass.get_declaration
            rw [hext, hname]
            rw [if_neg (fun hh => hh rfl)]
            decide

/-! ### Remaining concrete witnesses -/

def c4inputs : List (String × List String) :=
  [("a.php", ["class C", "$this->y = 1;"]), ("b.php", ["$obj->y = 2;"])]

def c4out : List String :=
  ["class C -- a.php:1", "    2: $y", "", "    public $y;", "", ""]

def c4dyn : DynamicProperty := { name := "y", line_nr := 1 }

def c4classC : PhpClass := { name := "C", line_nr := 0, dynamic_properties := [("y", c4dyn)] }

def c4fileA : PhpFile := { path := "a.php", classes := [("", { name := "", line_nr := 0 }), ("C", c4classC)] }

def c4fileB : PhpFile := { path := "b.php", classes := [("", { name := "", line_nr := 0, external_used_properties := ["y"] })] }

theorem report_visibility_from_external_witness :
    processFilesLines 2 c4inputs = some c4out ∧
      (suggestionLine (globalExternal (scanAll c4inputs)) c4dyn ∈ c4out ∧
        (suggestionLine (globalExternal (scanAll c4inputs)) c4dyn
            = "    public $" ++ c4dyn.name ++ ";"
          ↔ (globalExternal (scanAll c4inputs)).contains c4dyn.name = true) ∧
        (suggestionLine (globalExternal (scanAll c4inputs)) c4dyn
            = "    private $" ++ c4dyn.name ++ ";"
          ↔ (globalExternal (scanAll c4inputs)).contains c4dyn.name = false)) :=
  ⟨by decide,
    report_visibility_from_external 2 c4inputs c4out [c4fileA, c4fileB] c4fileA
      ("C", c4classC) ("y", c4dyn) (by decide) (by decide) (by decide) (by decide)
      (by decide)⟩

def c9out : List String :=
  ["class  -- p.php:1", "    1: $a", "", "    private $a;", "", ""]

theorem placeholder_reported_witness :
    processFilesLines 1 [("p.php", ["$this->a = 1;"])] = some c9out ∧
      (∃ c tail,
        c9out = deprecatedSection (scanAll [("p.php", ["$this->a = 1;"])])
          ++ (classSection (globalExternal (scanAll [("p.php", ["$this->a = 1;"])]))
            "p.php" c ++ tail)
        ∧ c.get_declaration = "class " ∧ c.line_nr = 0
        ∧ dictGet c.dynamic_properties "a" = some { name := "a", line_nr := 0 }) :=
  ⟨by decide,
    placeholder_reported 1 "p.php" "$this->a = 1;" [] "a" c9out
      (by decide) (by decide) (by decide) (by decide) (by decide)⟩

end Php82
